import Mathlib

/-!
Verification of the JUCE `MidiBuffer` subsystem (time-ordered MIDI event
buffer).  The repository provides the class header `juce_MidiBuffer.h`
(declarations and doc comments); the implementation body is not part of the
sources, so every operation below is modelled from the design specification
of the Event Store and its Cursor, faithful to the spec's wording.

The Event Store's packed byte region is modelled at the record level: a
buffer is the left-to-right sequence of framed records, each carrying its
signed integer sample `time` and its opaque `payload` bytes.
-/

/-- One framed record of the Event Store: a signed sample time (the sort
key) and the opaque payload bytes of the MIDI message. -/
structure MidiRecord where
  time : Int
  payload : List Nat
deriving DecidableEq, Repr

/-- The Event Store, viewed as its left-to-right sequence of records
(the packed byte region read from offset 0 to `usedBytes`). -/
abbrev MidiBuffer := List MidiRecord

/-- A MIDI message value: raw bytes plus the message's own timestamp
(which `MidiBuffer::addEvent` documents as ignored). -/
structure MidiMessage where
  bytes : List Nat
  timestamp : Int
deriving DecidableEq, Repr

/-- The Event Store's ordering invariant (Invariant 1): reading records
left to right yields non-decreasing `time` values. -/
def TimeOrdered (buf : MidiBuffer) : Prop :=
  List.Pairwise (fun r s => r.time ≤ s.time) buf

instance : DecidablePred TimeOrdered := fun buf =>
  List.instDecidablePairwise buf

/-- Modelled from the spec: `addEvent` walks the records from the end of
the store looking for the last existing record with `time ≤ sampleNumber`;
the new record is placed immediately after it (at the very front when no
such record exists).  The argument is the reversed record sequence. -/
def insertRevAux (e : MidiRecord) : List MidiRecord → List MidiRecord
  | [] => [e]
  | r :: rs => if r.time ≤ e.time then e :: r :: rs else r :: insertRevAux e rs

/-- Modelled from the spec: `addEvent(message, sampleNumber)` encodes the
message into a framed record and inserts it at the position after the last
existing record with `time ≤ sampleNumber`, so that new events land after
existing equal-time events. -/
def addEvent (buf : MidiBuffer) (midiMessage : List Nat) (sampleNumber : Int) :
    MidiBuffer :=
  (insertRevAux ⟨sampleNumber, midiMessage⟩ buf.reverse).reverse

/-- Modelled from the spec: the message-form `addEvent` uses only the raw
bytes of the `MidiMessage`; its internal timestamp is ignored (the header
documents: "The MidiMessage's timestamp is ignored"). -/
def addEventMsg (buf : MidiBuffer) (midiMessage : MidiMessage)
    (sampleNumber : Int) : MidiBuffer :=
  addEvent buf midiMessage.bytes sampleNumber

/-- Modelled from the spec: the standard MIDI rule giving the byte length
of a short message from its leading status byte.  A byte below `0x80` is
not a status byte (unrecognized, length 0); channel messages have fixed
lengths 2 or 3; system common/real-time bytes have fixed lengths 1 to 3.
The open-ended system-exclusive class (`0xF0`) is handled separately. -/
def messageLengthFromFirstByte (b : Nat) : Nat :=
  if b < 0x80 then 0
  else if b ≤ 0xBF then 3
  else if b ≤ 0xDF then 2
  else if b ≤ 0xEF then 3
  else if b = 0xF1 ∨ b = 0xF3 then 2
  else if b = 0xF2 then 3
  else 1

/-- Modelled from the spec: scan of an open-ended (system-exclusive)
message body for the `0xF7` terminator, consuming at most `budget` bytes;
returns the number of bytes consumed, the terminator included when found. -/
def scanTerm : List Nat → Nat → Nat
  | [], _ => 0
  | _ :: _, 0 => 0
  | x :: xs, b + 1 => if x = 0xF7 then 1 else 1 + scanTerm xs b

/-- Modelled from the spec: the actual message length computed from the
leading status byte of the raw data — a fixed length for the closed status
classes, and for the open-ended `0xF0` class the distance to the terminator
byte bounded by the caller-supplied `maxBytes`.  Empty or non-status data
is unrecognized (length 0). -/
def findActualEventLength (rawMidiData : List Nat) (maxBytes : Int) : Nat :=
  match rawMidiData with
  | [] => 0
  | b :: rest =>
    if b = 0xF0 then
      if maxBytes ≤ 0 then 0 else 1 + scanTerm rest (maxBytes - 1).toNat
    else messageLengthFromFirstByte b

/-- Modelled from the spec: `addEvent(rawMidiData, maxBytesOfMidiData,
sampleNumber)` first computes the actual message length from the leading
status byte; if that length is 0 or exceeds `maxBytesOfMidiData` no record
is added (silent no-op), otherwise it behaves as the message-form
`addEvent` using only the computed number of bytes. -/
def addEventRaw (buf : MidiBuffer) (rawMidiData : List Nat)
    (maxBytesOfMidiData sampleNumber : Int) : MidiBuffer :=
  if findActualEventLength rawMidiData maxBytesOfMidiData = 0 ∨
      maxBytesOfMidiData <
        (findActualEventLength rawMidiData maxBytesOfMidiData : Int) then buf
  else
    addEvent buf
      (rawMidiData.take (findActualEventLength rawMidiData maxBytesOfMidiData))
      sampleNumber

/-- Modelled from the spec: `clear()` removes all records. -/
def clearAll (_ : MidiBuffer) : MidiBuffer := []

/-- Modelled from the spec: `clear(start, numSamples)` locates the first
record with `time ≥ start` and the first with `time ≥ start + numSamples`
and removes the span between them, compacting the rest; when
`numSamples ≤ 0` no records are removed. -/
def clearRange (buf : MidiBuffer) (start numSamples : Int) : MidiBuffer :=
  if numSamples ≤ 0 then buf
  else
    buf.takeWhile (fun r => r.time < start) ++
      buf.dropWhile (fun r => r.time < start + numSamples)

/-- Modelled from the spec: `isEmpty()` is true iff no bytes are used. -/
def isEmptyBuf (buf : MidiBuffer) : Bool :=
  match buf with
  | [] => true
  | _ :: _ => false

/-- Modelled from the spec: `getNumEvents()` walks the records
sequentially, counting them. -/
def getNumEvents : MidiBuffer → Nat
  | [] => 0
  | _ :: rs => 1 + getNumEvents rs

/-- Modelled from the spec: `getFirstEventTime()` reads the time of the
first record, or 0 when the buffer is empty. -/
def getFirstEventTime (buf : MidiBuffer) : Int :=
  match buf with
  | [] => 0
  | r :: _ => r.time

/-- Modelled from the spec: `getLastEventTime()` walks to the final record
(record lengths are variable, so the store cannot index from the end) and
returns its time, or 0 when the buffer is empty. -/
def getLastEventTime : MidiBuffer → Int
  | [] => 0
  | [r] => r.time
  | _ :: r :: rs => getLastEventTime (r :: rs)

/-- Modelled from the spec: `swap(other)` exchanges the internal state
(storage and used-byte count) of two stores wholesale; no record is
re-encoded or copied into fresh storage. -/
def swapBuffers (a b : MidiBuffer) : MidiBuffer × MidiBuffer := (b, a)

/-- Modelled from the spec: the Cursor's `setNextSamplePosition(p)`
repositions to the first record with `time ≥ p`; if none exists the cursor
is exhausted.  The cursor state is the remaining record sequence. -/
def setNextSamplePosition (buf : MidiBuffer) (samplePosition : Int) :
    List MidiRecord :=
  buf.dropWhile (fun r => r.time < samplePosition)

/-- Modelled from the spec: the Cursor's `getNextEvent` returns the record
at the current position and advances past it, or signals exhaustion. -/
def getNextEvent : List MidiRecord → Option (MidiRecord × List MidiRecord)
  | [] => none
  | r :: rs => some (r, rs)

/-- A full traversal with a Cursor from the start of the buffer: the
sequence of (time, payload bytes) pairs produced by repeated
`getNextEvent` calls. -/
def traverseBuf : MidiBuffer → List (Int × List Nat)
  | [] => []
  | r :: rs => (r.time, r.payload) :: traverseBuf rs

/-- Modelled from the spec: `addEvents(source, startSample, numSamples,
sampleDeltaToAdd)` iterates the source from the first record with
`time ≥ startSample` and, while the record's time is below
`startSample + numSamples` (no upper bound when `numSamples < 0`), adds it
to the destination at its time plus `sampleDeltaToAdd`. -/
def addEventsLoop (startSample numSamples sampleDeltaToAdd : Int) :
    MidiBuffer → List MidiRecord → MidiBuffer
  | dest, [] => dest
  | dest, r :: rs =>
    if numSamples < 0 ∨ r.time < startSample + numSamples then
      addEventsLoop startSample numSamples sampleDeltaToAdd
        (addEvent dest r.payload (r.time + sampleDeltaToAdd)) rs
    else dest

/-- Modelled from the spec: `addEvents` entry point — position a cursor on
the source at `startSample` and run the copy loop. -/
def addEvents (dest source : MidiBuffer)
    (startSample numSamples sampleDeltaToAdd : Int) : MidiBuffer :=
  addEventsLoop startSample numSamples sampleDeltaToAdd dest
    (setNextSamplePosition source startSample)

/-- The spec's required output equivalence for `addEvents`, stated in its
own words: perform `addEvent` once per qualifying source record (original
time `t` with `startSample ≤ t` and, unless `numSamples < 0`,
`t < startSample + numSamples`) in source traversal order, each at time
`t + sampleDeltaToAdd`. -/
def addEventsSpec (dest source : MidiBuffer)
    (startSample numSamples sampleDeltaToAdd : Int) : MidiBuffer :=
  (source.filter (fun r =>
      decide (startSample ≤ r.time ∧
        (numSamples < 0 ∨ r.time < startSample + numSamples)))).foldl
    (fun d r => addEvent d r.payload (r.time + sampleDeltaToAdd)) dest

/-- The buffers reachable from the empty store by any sequence of the
mutating operations (`addEvent` in either form, `addEvents`, the two
`clear` forms); `swap` only exchanges two already-reachable states. -/
inductive Reachable : MidiBuffer → Prop
  | empty : Reachable []
  | addMsg {buf} (m : MidiMessage) (n : Int) :
      Reachable buf → Reachable (addEventMsg buf m n)
  | addRaw {buf} (data : List Nat) (maxBytes n : Int) :
      Reachable buf → Reachable (addEventRaw buf data maxBytes n)
  | addMany {dest source} (startSample numSamples delta : Int) :
      Reachable dest → Reachable source →
      Reachable (addEvents dest source startSample numSamples delta)
  | clearEverything {buf} : Reachable buf → Reachable (clearAll buf)
  | clearSpan {buf} (start numSamples : Int) :
      Reachable buf → Reachable (clearRange buf start numSamples)
  | swapFst {a b} : Reachable a → Reachable b →
      Reachable (swapBuffers a b).1
  | swapSnd {a b} : Reachable a → Reachable b →
      Reachable (swapBuffers a b).2

example : addEvent (addEvent (addEvent [] [0x90] 5) [0x91] 2) [0x92] 5 =
    [⟨2, [0x91]⟩, ⟨5, [0x90]⟩, ⟨5, [0x92]⟩] := by decide

/-! ### Basic list helpers -/

lemma takeWhile_append_all {α : Type} (p : α → Bool) (A B : List α)
    (hA : ∀ x ∈ A, p x = true) :
    (A ++ B).takeWhile p = A ++ B.takeWhile p := by
  induction A with
  | nil => simp
  | cons a l ih =>
    have ha : p a = true := hA a (List.mem_cons_self a l)
    simp only [List.cons_append, List.takeWhile_cons, ha, if_true]
    rw [ih fun x hx => hA x (List.mem_cons_of_mem a hx)]

lemma dropWhile_append_all {α : Type} (p : α → Bool) (A B : List α)
    (hA : ∀ x ∈ A, p x = true) :
    (A ++ B).dropWhile p = B.dropWhile p := by
  induction A with
  | nil => simp
  | cons a l ih =>
    have ha : p a = true := hA a (List.mem_cons_self a l)
    simp only [List.cons_append, List.dropWhile_cons, ha, if_true]
    exact ih fun x hx => hA x (List.mem_cons_of_mem a hx)

lemma takeWhile_nil_of_all_neg {α : Type} (p : α → Bool) (B : List α)
    (hB : ∀ x ∈ B, p x = false) : B.takeWhile p = [] := by
  cases B with
  | nil => rfl
  | cons b l =>
    simp only [List.takeWhile_cons, hB b (List.mem_cons_self b l)]
    simp

lemma dropWhile_self_of_all_neg {α : Type} (p : α → Bool) (B : List α)
    (hB : ∀ x ∈ B, p x = false) : B.dropWhile p = B := by
  cases B with
  | nil => rfl
  | cons b l =>
    simp only [List.dropWhile_cons, hB b (List.mem_cons_self b l)]
    simp

/-! ### The insertion splice -/

/-- `insertRevAux` splits the (reversed) record list at the first record
with `time ≤ e.time` and places `e` there. -/
lemma insertRevAux_eq_splice (e : MidiRecord) (l : List MidiRecord) :
    insertRevAux e l =
      l.takeWhile (fun r => decide (e.time < r.time)) ++
        e :: l.dropWhile (fun r => decide (e.time < r.time)) := by
  induction l with
  | nil => rfl
  | cons r rs ih =>
    by_cases h : r.time ≤ e.time
    · simp [insertRevAux, h, List.takeWhile_cons, List.dropWhile_cons,
        not_lt.mpr h]
    · rw [not_le] at h
      simp only [insertRevAux, if_neg (not_le.mpr h), List.takeWhile_cons,
        List.dropWhile_cons, decide_eq_true h, if_true, List.cons_append]
      rw [ih]

/-- On a time-ordered buffer, every record left in place by
`dropWhile (time ≤ t)` has time strictly above `t`. -/
lemma dropWhile_le_time_gt {buf : MidiBuffer} (t : Int) (h : TimeOrdered buf) :
    ∀ r ∈ buf.dropWhile (fun r => decide (r.time ≤ t)), t < r.time := by
  induction buf with
  | nil => simp [List.dropWhile]
  | cons a l ih =>
    rw [TimeOrdered, List.pairwise_cons] at h
    by_cases ha : a.time ≤ t
    · simp only [List.dropWhile_cons, decide_eq_true ha, if_true]
      exact ih h.2
    · rw [not_le] at ha
      have hpa : decide (a.time ≤ t) = false := decide_eq_false (not_le.mpr ha)
      simp only [List.dropWhile_cons, hpa, Bool.false_eq_true, if_false]
      intro r hr
      rcases List.mem_cons.mp hr with rfl | hr
      · exact ha
      · exact lt_of_lt_of_le ha (h.1 r hr)

/-- On a time-ordered buffer, every record left in place by
`dropWhile (time < c)` has time at least `c`. -/
lemma dropWhile_lt_time_ge {buf : MidiBuffer} (c : Int) (h : TimeOrdered buf) :
    ∀ r ∈ buf.dropWhile (fun r => decide (r.time < c)), c ≤ r.time := by
  induction buf with
  | nil => simp [List.dropWhile]
  | cons a l ih =>
    rw [TimeOrdered, List.pairwise_cons] at h
    by_cases ha : a.time < c
    · simp only [List.dropWhile_cons, decide_eq_true ha, if_true]
      exact ih h.2
    · rw [not_lt] at ha
      have hpa : decide (a.time < c) = false := decide_eq_false (not_lt.mpr ha)
      simp only [List.dropWhile_cons, hpa, Bool.false_eq_true, if_false]
      intro r hr
      rcases List.mem_cons.mp hr with rfl | hr
      · exact ha
      · exact le_trans ha (h.1 r hr)

/-- On a time-ordered buffer, `addEvent` inserts the new record exactly
between the prefix of records with `time ≤ sampleNumber` and the rest. -/
lemma addEvent_eq_splice (buf : MidiBuffer) (msg : List Nat) (t : Int)
    (h : TimeOrdered buf) :
    addEvent buf msg t =
      buf.takeWhile (fun r => decide (r.time ≤ t)) ++
        ⟨t, msg⟩ :: buf.dropWhile (fun r => decide (r.time ≤ t)) := by
  have hbuf : buf = buf.takeWhile (fun r => decide (r.time ≤ t)) ++
      buf.dropWhile (fun r => decide (r.time ≤ t)) :=
    (List.takeWhile_append_dropWhile _ buf).symm
  have hT : ∀ x ∈ (buf.takeWhile (fun r => decide (r.time ≤ t))).reverse,
      (fun r : MidiRecord => decide (t < r.time)) x = false := by
    intro x hx
    have := List.mem_takeWhile_imp (List.mem_reverse.mp hx)
    simp only [decide_eq_true_eq] at this
    simp [not_lt.mpr this]
  have hD : ∀ x ∈ (buf.dropWhile (fun r => decide (r.time ≤ t))).reverse,
      (fun r : MidiRecord => decide (t < r.time)) x = true := by
    intro x hx
    exact decide_eq_true (dropWhile_le_time_gt t h x (List.mem_reverse.mp hx))
  have h1 : buf.reverse.takeWhile (fun r => decide (t < r.time)) =
      (buf.dropWhile (fun r => decide (r.time ≤ t))).reverse := by
    conv_lhs => rw [hbuf]
    rw [List.reverse_append, takeWhile_append_all _ _ _ hD,
      takeWhile_nil_of_all_neg _ _ hT]
    simp
  have h2 : buf.reverse.dropWhile (fun r => decide (t < r.time)) =
      (buf.takeWhile (fun r => decide (r.time ≤ t))).reverse := by
    conv_lhs => rw [hbuf]
    rw [List.reverse_append, dropWhile_append_all _ _ _ hD,
      dropWhile_self_of_all_neg _ _ hT]
  rw [addEvent, insertRevAux_eq_splice, h1, h2]
  simp

/-- `addEvent` preserves the Event Store's ordering invariant. -/
lemma addEvent_timeOrdered (buf : MidiBuffer) (msg : List Nat) (t : Int)
    (h : TimeOrdered buf) : TimeOrdered (addEvent buf msg t) := by
  rw [addEvent_eq_splice buf msg t h, TimeOrdered, List.pairwise_append]
  refine ⟨h.sublist (List.takeWhile_sublist _), ?_, ?_⟩
  · rw [List.pairwise_cons]
    refine ⟨fun r hr => le_of_lt (dropWhile_le_time_gt t h r hr),
      h.sublist (List.dropWhile_sublist _)⟩
  · intro a ha b hb
    have haT : a.time ≤ t := by
      have := List.mem_takeWhile_imp ha
      simpa using this
    rcases List.mem_cons.mp hb with rfl | hb
    · exact haT
    · exact le_trans haT (le_of_lt (dropWhile_le_time_gt t h b hb))

/-! ### The ordering invariant is preserved by every operation -/

lemma addEventsLoop_timeOrdered (a n δ : Int) (l : List MidiRecord)
    (dest : MidiBuffer) (h : TimeOrdered dest) :
    TimeOrdered (addEventsLoop a n δ dest l) := by
  induction l generalizing dest with
  | nil => exact h
  | cons r rs ih =>
    rw [addEventsLoop]
    by_cases hc : n < 0 ∨ r.time < a + n
    · rw [if_pos hc]
      exact ih _ (addEvent_timeOrdered _ _ _ h)
    · rw [if_neg hc]
      exact h

lemma clearRange_timeOrdered (buf : MidiBuffer) (start numSamples : Int)
    (h : TimeOrdered buf) : TimeOrdered (clearRange buf start numSamples) := by
  rw [clearRange]
  by_cases hn : numSamples ≤ 0
  · rw [if_pos hn]; exact h
  · rw [if_neg hn]
    rw [TimeOrdered, List.pairwise_append]
    refine ⟨h.sublist (List.takeWhile_sublist _),
      h.sublist (List.dropWhile_sublist _), ?_⟩
    intro x hx y hy
    have hxs : x.time < start := by
      have := List.mem_takeWhile_imp hx
      simpa using this
    have hys : start + numSamples ≤ y.time :=
      dropWhile_lt_time_ge (start + numSamples) h y hy
    rw [not_le] at hn
    have : start ≤ start + numSamples := by linarith
    exact le_of_lt (lt_of_lt_of_le hxs (le_trans this hys))

lemma addEventMsg_timeOrdered (buf : MidiBuffer) (m : MidiMessage) (n : Int)
    (h : TimeOrdered buf) : TimeOrdered (addEventMsg buf m n) :=
  addEvent_timeOrdered buf m.bytes n h

lemma addEventRaw_timeOrdered (buf : MidiBuffer) (data : List Nat)
    (maxBytes n : Int) (h : TimeOrdered buf) :
    TimeOrdered (addEventRaw buf data maxBytes n) := by
  rw [addEventRaw]
  by_cases hc : findActualEventLength data maxBytes = 0 ∨
      maxBytes < (findActualEventLength data maxBytes : Int)
  · simp only [if_pos hc]
    exact h
  · simp only [if_neg hc]
    exact addEvent_timeOrdered _ _ _ h

/-- Every buffer reachable by any sequence of operations satisfies the
Event Store's ordering invariant. -/
lemma reachable_timeOrdered {buf : MidiBuffer} (h : Reachable buf) :
    TimeOrdered buf := by
  induction h with
  | empty => exact List.Pairwise.nil
  | addMsg m n _ ih => exact addEventMsg_timeOrdered _ m n ih
  | addRaw data maxBytes n _ ih => exact addEventRaw_timeOrdered _ data maxBytes n ih
  | addMany startSample numSamples delta _ _ ihd _ =>
    exact addEventsLoop_timeOrdered _ _ _ _ _ ihd
  | clearEverything _ _ => exact List.Pairwise.nil
  | clearSpan start numSamples _ ih => exact clearRange_timeOrdered _ start numSamples ih
  | swapFst _ _ _ ihb => exact ihb
  | swapSnd _ _ iha _ => exact iha

/-- A full traversal lists exactly the (time, payload) pairs of the
records in storage order. -/
lemma traverse_eq_map (buf : MidiBuffer) :
    traverseBuf buf = buf.map (fun r => (r.time, r.payload)) := by
  induction buf with
  | nil => rfl
  | cons r rs ih => simp [traverseBuf, ih]

/-! ### Cursor repositioning and the merge loop -/

/-- On a time-ordered buffer, dropping the prefix of records with
`time < p` keeps exactly the records with `time ≥ p`. -/
lemma dropWhile_lt_eq_filter (buf : MidiBuffer) (p : Int) (h : TimeOrdered buf) :
    buf.dropWhile (fun r => decide (r.time < p)) =
      buf.filter (fun r => decide (p ≤ r.time)) := by
  induction buf with
  | nil => rfl
  | cons a l ih =>
    rw [TimeOrdered, List.pairwise_cons] at h
    by_cases ha : a.time < p
    · have h1 : decide (a.time < p) = true := decide_eq_true ha
      have h2 : decide (p ≤ a.time) = false := decide_eq_false (not_le.mpr ha)
      simp only [List.dropWhile_cons, List.filter_cons, h1, h2, if_true,
        Bool.false_eq_true, if_false]
      exact ih h.2
    · rw [not_lt] at ha
      have h1 : decide (a.time < p) = false := decide_eq_false (not_lt.mpr ha)
      have h2 : decide (p ≤ a.time) = true := decide_eq_true ha
      simp only [List.dropWhile_cons, List.filter_cons, h1, h2,
        Bool.false_eq_true, if_false, if_true]
      have : ∀ x ∈ l, decide (p ≤ x.time) = true := fun x hx =>
        decide_eq_true (le_trans ha (h.1 x hx))
      rw [List.filter_eq_self.mpr this]

/-- The copy loop of `addEvents` processes exactly the leading records
accepted by the stop condition, folding `addEvent` over them. -/
lemma addEventsLoop_eq_foldl (a n δ : Int) (l : List MidiRecord)
    (dest : MidiBuffer) :
    addEventsLoop a n δ dest l =
      (l.takeWhile (fun r => decide (n < 0 ∨ r.time < a + n))).foldl
        (fun d r => addEvent d r.payload (r.time + δ)) dest := by
  induction l generalizing dest with
  | nil => rfl
  | cons r rs ih =>
    by_cases hc : n < 0 ∨ r.time < a + n
    · rw [addEventsLoop, if_pos hc, List.takeWhile_cons, decide_eq_true hc]
      simp only [if_true, List.foldl_cons]
      exact ih _
    · rw [addEventsLoop, if_neg hc, List.takeWhile_cons, decide_eq_false hc]
      simp

/-- On a time-ordered record list, the merge loop's stop condition cuts
the list exactly at the first out-of-range record, so taking the accepted
prefix is the same as filtering. -/
lemma takeWhile_stop_eq_filter (l : List MidiRecord) (n c : Int)
    (h : List.Pairwise (fun r s => r.time ≤ s.time) l) :
    l.takeWhile (fun r => decide (n < 0 ∨ r.time < c)) =
      l.filter (fun r => decide (n < 0 ∨ r.time < c)) := by
  induction l with
  | nil => rfl
  | cons a rest ih =>
    rw [List.pairwise_cons] at h
    by_cases ha : n < 0 ∨ a.time < c
    · have h1 : decide (n < 0 ∨ a.time < c) = true := decide_eq_true ha
      simp only [List.takeWhile_cons, List.filter_cons, h1, if_true]
      rw [ih h.2]
    · have h1 : decide (n < 0 ∨ a.time < c) = false := decide_eq_false ha
      simp only [List.takeWhile_cons, List.filter_cons, h1,
        Bool.false_eq_true, if_false]
      have : ∀ x ∈ rest, ¬ (decide (n < 0 ∨ x.time < c) = true) := by
        intro x hx hdec
        rcases of_decide_eq_true hdec with hn | hxc
        · exact ha (Or.inl hn)
        · push_neg at ha
          exact absurd (lt_of_le_of_lt (h.1 x hx) hxc) (not_lt.mpr ha.2)
      rw [List.filter_eq_nil_iff.mpr this]

/-! ### Raw-byte framing lemmas -/

/-- Rescanning an open-ended message with a budget equal to the bytes the
first scan consumed consumes the same bytes again. -/
lemma scanTerm_idem (xs : List Nat) :
    ∀ b, scanTerm xs (scanTerm xs b) = scanTerm xs b := by
  induction xs with
  | nil => intro b; rfl
  | cons x l ih =>
    intro b
    cases b with
    | zero => rfl
    | succ b =>
      by_cases hx : x = 0xF7
      · simp [scanTerm, hx]
      · have h1 : scanTerm (x :: l) (b + 1) = 1 + scanTerm l b := by
          simp only [scanTerm, if_neg hx]
        rw [h1, Nat.add_comm 1 (scanTerm l b)]
        have h2 : scanTerm (x :: l) (scanTerm l b + 1) =
            1 + scanTerm l (scanTerm l b) := by
          simp only [scanTerm, if_neg hx]
        rw [h2, ih b, Nat.add_comm]

/-- The computed message length is stable: recomputing it with `maxBytes`
set to the computed length itself gives the same length back. -/
lemma findActualEventLength_stable (data : List Nat) (maxBytes : Int)
    (L : Nat) (h1 : findActualEventLength data maxBytes = L) (h2 : 0 < L)
    (h3 : (L : Int) ≤ maxBytes) :
    findActualEventLength data (L : Int) = L := by
  cases data with
  | nil => simp only [findActualEventLength] at h1; omega
  | cons b rest =>
    by_cases hb : b = 0xF0
    · simp only [findActualEventLength, if_pos hb] at h1
      by_cases hm : maxBytes ≤ 0
      · rw [if_pos hm] at h1; omega
      · rw [if_neg hm] at h1
        simp only [findActualEventLength, if_pos hb,
          if_neg (by omega : ¬ (L : Int) ≤ 0)]
        have hL1 : ((L : Int) - 1).toNat = L - 1 := by omega
        rw [hL1]
        have hL2 : L - 1 = scanTerm rest (maxBytes - 1).toNat := by omega
        rw [hL2, scanTerm_idem]
        omega
    · simp only [findActualEventLength, if_neg hb] at h1
      simp only [findActualEventLength, if_neg hb]
      exact h1

/-! ### Claim theorems -/

/-- C1: for every MidiBuffer reachable by any sequence of operations
(addEvent in either form, addEvents, clear, swap), a full traversal with
an Iterator yields events whose sample times are non-decreasing. -/
theorem reachable_traversal_times_nondecreasing (buf : MidiBuffer)
    (h : Reachable buf) :
    List.Pairwise (fun x y => x.1 ≤ y.1) (traverseBuf buf) := by
  rw [traverse_eq_map]
  exact List.pairwise_map.mpr (reachable_timeOrdered h)

theorem reachable_traversal_times_nondecreasing_witness :
    Reachable (addEventMsg (addEventMsg [] ⟨[0x90, 60, 100], 0⟩ 5)
      ⟨[0x80, 60, 0], 7⟩ 2) ∧
    List.Pairwise (fun x y => x.1 ≤ y.1)
      (traverseBuf (addEventMsg (addEventMsg [] ⟨[0x90, 60, 100], 0⟩ 5)
        ⟨[0x80, 60, 0], 7⟩ 2)) :=
  ⟨Reachable.addMsg _ _ (Reachable.addMsg _ _ Reachable.empty),
    reachable_traversal_times_nondecreasing _
      (Reachable.addMsg _ _ (Reachable.addMsg _ _ Reachable.empty))⟩

/-- C2: `addEvent` inserts the new event immediately after the last
existing event whose time is `≤ t` (the prefix of records with
`time ≤ t`), before every record with `time > t`; in particular inserting
A (time 5), B (time 2), C (time 5) into an empty buffer in that order
yields traversal order [B, A, C]. -/
theorem addEvent_inserts_after_equal_times (buf : MidiBuffer)
    (msg : List Nat) (t : Int) (h : TimeOrdered buf) :
    (addEvent buf msg t =
        buf.takeWhile (fun r => decide (r.time ≤ t)) ++
          ⟨t, msg⟩ :: buf.dropWhile (fun r => decide (r.time ≤ t))) ∧
    (∀ r ∈ buf.takeWhile (fun r => decide (r.time ≤ t)), r.time ≤ t) ∧
    (∀ r ∈ buf.dropWhile (fun r => decide (r.time ≤ t)), t < r.time) ∧
    addEvent (addEvent (addEvent [] [0x90] 5) [0x91] 2) [0x92] 5 =
      [⟨2, [0x91]⟩, ⟨5, [0x90]⟩, ⟨5, [0x92]⟩] := by
  refine ⟨addEvent_eq_splice buf msg t h, ?_, dropWhile_le_time_gt t h,
    by decide⟩
  intro r hr
  simpa using List.mem_takeWhile_imp hr

theorem addEvent_inserts_after_equal_times_witness :
    TimeOrdered [⟨1, [7]⟩, ⟨5, [8]⟩] ∧
    addEvent [⟨1, [7]⟩, ⟨5, [8]⟩] [9] 5 =
      [⟨1, [7]⟩, ⟨5, [8]⟩, ⟨5, [9]⟩] :=
  ⟨by decide,
    ((addEvent_inserts_after_equal_times [⟨1, [7]⟩, ⟨5, [8]⟩] [9] 5
      (by decide)).1).trans (by decide)⟩

/-- C5: when the length computed from the leading status byte is 0,
exceeds `maxBytesOfMidiData`, or the data is unrecognized, the raw-byte
`addEvent` leaves the buffer completely unchanged (same records, same
event count) and raises no error. -/
theorem addEventRaw_malformed_silent_noop (buf : MidiBuffer)
    (data : List Nat) (maxBytes t : Int)
    (h : findActualEventLength data maxBytes = 0 ∨
      maxBytes < (findActualEventLength data maxBytes : Int)) :
    addEventRaw buf data maxBytes t = buf ∧
    getNumEvents (addEventRaw buf data maxBytes t) = getNumEvents buf := by
  have h1 : addEventRaw buf data maxBytes t = buf := by
    rw [addEventRaw, if_pos h]
  exact ⟨h1, by rw [h1]⟩

theorem addEventRaw_malformed_silent_noop_witness :
    (findActualEventLength [0x90] 1 = 0 ∨
      (1 : Int) < (findActualEventLength [0x90] 1 : Int)) ∧
    addEventRaw [⟨2, [0xC0, 5]⟩] [0x90] 1 3 = [⟨2, [0xC0, 5]⟩] :=
  ⟨by decide,
    (addEventRaw_malformed_silent_noop [⟨2, [0xC0, 5]⟩] [0x90] 1 3
      (by decide)).1⟩

/-- C6: when the computed length `L` is valid and `maxBytesOfMidiData ≥ L`,
the raw-byte `addEvent` stores exactly the first `L` bytes — extra offered
bytes are discarded — and the result is identical to calling it with
`maxBytesOfMidiData = L`. -/
theorem addEventRaw_stores_computed_length (buf : MidiBuffer)
    (data : List Nat) (maxBytes t : Int) (L : Nat)
    (h1 : findActualEventLength data maxBytes = L) (h2 : 0 < L)
    (h3 : (L : Int) ≤ maxBytes) :
    addEventRaw buf data maxBytes t = addEvent buf (data.take L) t ∧
    addEventRaw buf data maxBytes t = addEventRaw buf data (L : Int) t := by
  have hg : ¬ (findActualEventLength data maxBytes = 0 ∨
      maxBytes < (findActualEventLength data maxBytes : Int)) := by
    rw [h1]; push_neg; exact ⟨by omega, by omega⟩
  have hA : addEventRaw buf data maxBytes t = addEvent buf (data.take L) t := by
    rw [addEventRaw, if_neg hg, h1]
  have hs := findActualEventLength_stable data maxBytes L h1 h2 h3
  have hg2 : ¬ (findActualEventLength data (L : Int) = 0 ∨
      (L : Int) < (findActualEventLength data (L : Int) : Int)) := by
    rw [hs]; push_neg; exact ⟨by omega, by omega⟩
  refine ⟨hA, hA.trans ?_⟩
  rw [addEventRaw, if_neg hg2, hs]

theorem addEventRaw_stores_computed_length_witness :
    findActualEventLength [0x90, 60, 100, 42] 4 = 3 ∧ 0 < 3 ∧
      (3 : Int) ≤ 4 ∧
    addEventRaw [] [0x90, 60, 100, 42] 4 7 =
      addEvent [] ([0x90, 60, 100, 42].take 3) 7 :=
  ⟨by decide, by decide, by decide,
    (addEventRaw_stores_computed_length [] [0x90, 60, 100, 42] 4 7 3
      (by decide) (by decide) (by decide)).1⟩

/-- C8: after `swap`, a full traversal of each buffer yields exactly the
event sequence the other yielded before; the two stores' internal states
are exchanged wholesale, nothing is re-encoded. -/
theorem swapBuffers_exchanges_contents (a b : MidiBuffer) :
    traverseBuf (swapBuffers a b).1 = traverseBuf b ∧
    traverseBuf (swapBuffers a b).2 = traverseBuf a ∧
    swapBuffers a b = (b, a) :=
  ⟨rfl, rfl, rfl⟩

/-- C10: the message-form `addEvent` is determined solely by the message's
raw bytes and the `sampleNumber` argument; two messages with identical
bytes but different internal timestamps produce identical buffers. -/
theorem addEvent_independent_of_message_timestamp (buf : MidiBuffer)
    (sampleNumber : Int) (m1 m2 : MidiMessage) (h : m1.bytes = m2.bytes) :
    addEventMsg buf m1 sampleNumber = addEventMsg buf m2 sampleNumber := by
  rw [addEventMsg, addEventMsg, h]

theorem addEvent_independent_of_message_timestamp_witness :
    (MidiMessage.mk [0x90, 60, 100] 3).bytes =
      (MidiMessage.mk [0x90, 60, 100] 99).bytes ∧
    addEventMsg [⟨1, [0x91]⟩] ⟨[0x90, 60, 100], 3⟩ 5 =
      addEventMsg [⟨1, [0x91]⟩] ⟨[0x90, 60, 100], 99⟩ 5 :=
  ⟨rfl, addEvent_independent_of_message_timestamp [⟨1, [0x91]⟩] 5
    ⟨[0x90, 60, 100], 3⟩ ⟨[0x90, 60, 100], 99⟩ rfl⟩

/-- C3: `addEvents` copies exactly the source records whose original time
`t` satisfies `startSample ≤ t` and (`numSamples < 0` or
`t < startSample + numSamples`), each inserted at `t + sampleDeltaToAdd`,
and the result equals performing `addEvent` once per qualifying source
record in source traversal order. -/
theorem addEvents_equiv_individual_addEvent (dest source : MidiBuffer)
    (startSample numSamples sampleDeltaToAdd : Int)
    (h : TimeOrdered source) :
    addEvents dest source startSample numSamples sampleDeltaToAdd =
      addEventsSpec dest source startSample numSamples sampleDeltaToAdd := by
  rw [addEvents, addEventsLoop_eq_foldl, addEventsSpec, setNextSamplePosition]
  rw [dropWhile_lt_eq_filter source startSample h]
  have hf : List.Pairwise (fun r s => r.time ≤ s.time)
      (source.filter (fun r => decide (startSample ≤ r.time))) :=
    h.sublist (List.filter_sublist _)
  rw [takeWhile_stop_eq_filter _ numSamples (startSample + numSamples) hf]
  rw [List.filter_filter]
  congr 1
  apply List.filter_congr
  intro x _
  simp only [Bool.decide_and]
  exact Bool.and_comm _ _

theorem addEvents_equiv_individual_addEvent_witness :
    TimeOrdered [⟨0, [2]⟩, ⟨3, [3]⟩, ⟨9, [4]⟩] ∧
    addEvents [⟨5, [1]⟩] [⟨0, [2]⟩, ⟨3, [3]⟩, ⟨9, [4]⟩] 1 10 2 =
      addEventsSpec [⟨5, [1]⟩] [⟨0, [2]⟩, ⟨3, [3]⟩, ⟨9, [4]⟩] 1 10 2 :=
  ⟨by decide,
    addEvents_equiv_individual_addEvent [⟨5, [1]⟩]
      [⟨0, [2]⟩, ⟨3, [3]⟩, ⟨9, [4]⟩] 1 10 2 (by decide)⟩

/-- C7: `setNextSamplePosition(p)` repositions the cursor so that
`getNextEvent` returns the first record with `time ≥ p` (the
earliest-stored among equal times), or signals exhaustion when no record
has `time ≥ p`; with times {1,3,3,7}, position 3 yields the first time-3
record and position 8 yields no further events. -/
theorem setNextSamplePosition_repositions (buf : MidiBuffer) (p : Int)
    (h : TimeOrdered buf) :
    (setNextSamplePosition buf p =
        buf.filter (fun r => decide (p ≤ r.time))) ∧
    (getNextEvent (setNextSamplePosition buf p) = none ↔
        ∀ r ∈ buf, r.time < p) ∧
    getNextEvent (setNextSamplePosition
        [⟨1, [10]⟩, ⟨3, [20]⟩, ⟨3, [30]⟩, ⟨7, [40]⟩] 3) =
      some (⟨3, [20]⟩, [⟨3, [30]⟩, ⟨7, [40]⟩]) ∧
    getNextEvent (setNextSamplePosition
        [⟨1, [10]⟩, ⟨3, [20]⟩, ⟨3, [30]⟩, ⟨7, [40]⟩] 8) = none := by
  have hset : setNextSamplePosition buf p =
      buf.filter (fun r => decide (p ≤ r.time)) :=
    dropWhile_lt_eq_filter buf p h
  refine ⟨hset, ?_, by decide, by decide⟩
  rw [hset]
  constructor
  · intro hnone r hr
    cases hfil : buf.filter (fun r => decide (p ≤ r.time)) with
    | nil =>
      have := List.filter_eq_nil_iff.mp hfil r hr
      simpa using this
    | cons a l =>
      rw [hfil] at hnone
      exact absurd hnone (by rw [getNextEvent]; simp)
  · intro hall
    have hnil : buf.filter (fun r => decide (p ≤ r.time)) = [] :=
      List.filter_eq_nil_iff.mpr
        (fun r hr => by simpa using not_le.mpr (hall r hr))
    rw [hnil]
    rfl

theorem setNextSamplePosition_repositions_witness :
    TimeOrdered [⟨1, ([] : List Nat)⟩, ⟨4, []⟩] ∧
    setNextSamplePosition [⟨1, ([] : List Nat)⟩, ⟨4, []⟩] 2 = [⟨4, []⟩] :=
  ⟨by decide,
    ((setNextSamplePosition_repositions [⟨1, []⟩, ⟨4, []⟩] 2
      (by decide)).1).trans (by decide)⟩

/-- `getFirstEventTime` reads the time of the first record, default 0. -/
lemma getFirstEventTime_eq (buf : MidiBuffer) :
    getFirstEventTime buf = (buf.head?.map MidiRecord.time).getD 0 := by
  cases buf with
  | nil => rfl
  | cons r rs => rfl

/-- `getLastEventTime` walks to the final record, default 0. -/
lemma getLastEventTime_eq (buf : MidiBuffer) :
    getLastEventTime buf = (buf.getLast?.map MidiRecord.time).getD 0 := by
  induction buf with
  | nil => rfl
  | cons r rs ih =>
    cases rs with
    | nil => rfl
    | cons r2 rs2 =>
      rw [show getLastEventTime (r :: r2 :: rs2) =
          getLastEventTime (r2 :: rs2) from rfl, ih,
        List.getLast?_cons_cons]

/-- C9: on an empty buffer `getFirstEventTime` and `getLastEventTime`
both return 0; on a non-empty buffer they return the time of the first
and of the final record of the traversal respectively. -/
theorem firstLastEventTime_correct (buf : MidiBuffer) :
    getFirstEventTime buf = ((traverseBuf buf).head?.map Prod.fst).getD 0 ∧
    getLastEventTime buf = ((traverseBuf buf).getLast?.map Prod.fst).getD 0 := by
  rw [traverse_eq_map, getFirstEventTime_eq, getLastEventTime_eq,
    List.head?_map, List.getLast?_map, Option.map_map, Option.map_map]
  exact ⟨rfl, rfl⟩

/-- C4: `clear(start, numSamples)` removes exactly the records with
`start ≤ time < start + numSamples`, the survivors keep their relative
order, and `numSamples ≤ 0` removes nothing; from times {0,2,4,6,8},
clear(2,4) leaves exactly {0,6,8} in order. -/
theorem clearRange_removes_exact_range (buf : MidiBuffer)
    (start numSamples : Int) (h : TimeOrdered buf) :
    (clearRange buf start numSamples =
        buf.filter (fun r =>
          decide (¬ (start ≤ r.time ∧ r.time < start + numSamples)))) ∧
    (numSamples ≤ 0 → clearRange buf start numSamples = buf) ∧
    clearRange [⟨0, ([] : List Nat)⟩, ⟨2, []⟩, ⟨4, []⟩, ⟨6, []⟩, ⟨8, []⟩] 2 4 =
      [⟨0, []⟩, ⟨6, []⟩, ⟨8, []⟩] := by
  refine ⟨?_, fun hn => by rw [clearRange, if_pos hn], by decide⟩
  by_cases hn : numSamples ≤ 0
  · rw [clearRange, if_pos hn]
    symm
    apply List.filter_eq_self.mpr
    intro r _
    apply decide_eq_true
    intro hcon
    omega
  · rw [clearRange, if_neg hn]
    rw [not_le] at hn
    have hsplit : buf = buf.takeWhile (fun r => decide (r.time < start)) ++
        buf.dropWhile (fun r => decide (r.time < start)) :=
      (List.takeWhile_append_dropWhile _ buf).symm
    have hTmem : ∀ x ∈ buf.takeWhile (fun r => decide (r.time < start)),
        x.time < start := by
      intro x hx
      have := List.mem_takeWhile_imp hx
      simpa using this
    have hDord : List.Pairwise (fun r s => r.time ≤ s.time)
        (buf.dropWhile (fun r => decide (r.time < start))) :=
      h.sublist (List.dropWhile_sublist _)
    have hDmem : ∀ x ∈ buf.dropWhile (fun r => decide (r.time < start)),
        start ≤ x.time := dropWhile_lt_time_ge start h
    have hdrop : buf.dropWhile (fun r => decide (r.time < start + numSamples)) =
        (buf.dropWhile (fun r => decide (r.time < start))).dropWhile
          (fun r => decide (r.time < start + numSamples)) := by
      conv_lhs => rw [hsplit]
      apply dropWhile_append_all
      intro x hx
      exact decide_eq_true (by have := hTmem x hx; omega)
    rw [hdrop]
    conv_rhs => rw [hsplit]
    rw [List.filter_append]
    congr 1
    · symm
      apply List.filter_eq_self.mpr
      intro x hx
      apply decide_eq_true
      intro hcon
      have := hTmem x hx
      omega
    · rw [dropWhile_lt_eq_filter _ _ hDord]
      apply List.filter_congr
      intro x hx
      have hx1 := hDmem x hx
      rw [decide_eq_decide]
      constructor
      · intro hge hcon
        omega
      · intro hnot
        omega

theorem clearRange_removes_exact_range_witness :
    TimeOrdered [⟨1, ([5] : List Nat)⟩, ⟨3, [6]⟩, ⟨9, [7]⟩] ∧
    clearRange [⟨1, ([5] : List Nat)⟩, ⟨3, [6]⟩, ⟨9, [7]⟩] 2 4 =
      [⟨1, [5]⟩, ⟨9, [7]⟩] :=
  ⟨by decide,
    ((clearRange_removes_exact_range [⟨1, [5]⟩, ⟨3, [6]⟩, ⟨9, [7]⟩] 2 4
      (by decide)).1).trans (by decide)⟩
